import Mathlib

/-!
Verification of the iowa-co-ops ML pipeline scripts.

This file gives a shallow embedding, in Lean 4, of the pure data
transformations of the repository scripts
`generate_candidates.py`, `generate_embeddings.py`, `similarity_search.py`,
`verify_candidates.py`, `import_sos_cooperatives.py` and `batch_import.py`,
and proves (or refutes) the testable properties of the specification
against that embedding.

Modelling conventions:
* Python strings are Lean `String` values; character-level helpers work on
  `List Char` (the `data` field).  Python `str.lower` is modelled for the
  ASCII range (the repository data is ASCII).
* Python floats are modelled as rationals (`ℚ`); the scripts only use
  arithmetic (`+`, `*`, `/`, comparisons) that is exact on rationals.
* `numpy` sorting: the scripts call `np.argsort` (default quicksort, which
  is insertion sort for the short arrays involved and therefore stable) and
  Python `list.sort` (Timsort, stable).  Both are modelled with
  `List.insertionSort`, which is stable and, for the total antisymmetric
  index orders used below, is the unique sorted permutation, so the model
  is algorithm-independent there.
* Network and model calls (`requests`, `SentenceTransformer.encode`) are
  modelled as explicit function parameters.
-/

namespace IowaCoops

/-! ### Python string primitives -/

/-- Model of Python `str.lower` for ASCII characters: maps `A`..`Z` to
`a`..`z` and leaves every other character unchanged. -/
def asciiLower (c : Char) : Char :=
  if 65 ≤ c.toNat ∧ c.toNat ≤ 90 then Char.ofNat (c.toNat + 32) else c

/-- Python `s.lower()` on the character list of a string (ASCII range). -/
def pyLower (s : List Char) : List Char := s.map asciiLower

/-- Scanner for Python `s.replace(pat, "")`: walks the string left to
right; on a match it emits nothing and skips the matched characters
(the counter argument), exactly like CPython, which continues scanning
after the replaced occurrence. -/
def replDelAux (pat : List Char) : List Char → Nat → List Char
  | [], _ => []
  | _ :: rest, k + 1 => replDelAux pat rest k
  | c :: rest, 0 =>
    if !pat.isEmpty && pat.isPrefixOf (c :: rest) then
      replDelAux pat rest (pat.length - 1)
    else
      c :: replDelAux pat rest 0

/-- Python `s.replace(pat, "")`: delete every (left-to-right,
non-overlapping) occurrence of `pat` in `s`. -/
def pyReplaceDel (s pat : List Char) : List Char := replDelAux pat s 0

/-- Whether `pat` occurs as a contiguous substring of `s`
(the Python `pat in s` test). -/
def containsSub (pat : List Char) : List Char → Bool
  | [] => pat.isEmpty
  | c :: rest => pat.isPrefixOf (c :: rest) || containsSub pat rest

/-- Splitter for Python `s.split()` (no argument): accumulates the current
word (reversed) and cuts at whitespace runs, discarding empty words. -/
def pyWordsAux : List Char → List Char → List (List Char)
  | acc, [] => if acc.isEmpty then [] else [acc.reverse]
  | acc, c :: rest =>
    if c.isWhitespace then
      if acc.isEmpty then pyWordsAux [] rest else acc.reverse :: pyWordsAux [] rest
    else
      pyWordsAux (c :: acc) rest

/-- Python `s.split()`: the whitespace-separated words of `s`. -/
def pyWords (s : List Char) : List (List Char) := pyWordsAux [] s

/-- Python `" ".join(ws)`. -/
def pyUnwords : List (List Char) → List Char
  | [] => []
  | [w] => w
  | w :: ws => w ++ ' ' :: pyUnwords ws

/-- Python `" ".join(s.split())`: collapse whitespace runs to single
spaces and trim the ends. -/
def collapseWs (s : List Char) : List Char := pyUnwords (pyWords s)

/-- Python string slicing `s[:n]` (by code points, like Lean char lists). -/
def pySlice (s : String) (n : ℕ) : String := ⟨s.data.take n⟩

/-! ### generate_candidates.py -/

namespace GenerateCandidates

/-- The suffix strings removed by `normalize_name`, in source order. -/
def suffixPats : List (List Char) :=
  [", inc".data, " inc".data, ", llc".data, " llc".data,
   ", ltd".data, " ltd".data, ".".data]

/-- Embedding of `normalize_name` (generate_candidates.py, lines 57-65):
lower-case, delete each suffix pattern everywhere in the string (Python
`str.replace` removes all occurrences, not only trailing ones), then
collapse whitespace. -/
def normalize_name (s : String) : String :=
  ⟨collapseWs (suffixPats.foldl pyReplaceDel (pyLower s.data))⟩

/-- Decidable test that none of the suffix patterns occurs in `s`. -/
def noSuffixIn (s : String) : Bool :=
  suffixPats.all (fun p => !containsSub p s.data)

/-- Scheme scanner of `urllib.parse.urlsplit`: after an initial ASCII
letter, consume scheme characters (letters, digits, `+`, `-`, `.`) up to a
colon; return the remainder after the colon, or `none` if the head of the
string is not a scheme followed by a colon. -/
def findSchemeRest : List Char → Option (List Char)
  | [] => none
  | c :: rest =>
    if c = ':' then some rest
    else if c.isAlphanum || c = '+' || c = '-' || c = '.' then findSchemeRest rest
    else none

/-- Drop a leading `scheme:` from a URL, as `urlsplit` does; a string not
starting with a scheme is returned unchanged. -/
def stripScheme (s : List Char) : List Char :=
  match s with
  | [] => []
  | c :: rest =>
    if c.isAlpha then
      match findSchemeRest rest with
      | some r => r
      | none => s
    else s

/-- The `netloc` component of `urllib.parse.urlparse(url)`: present only
when the remainder after the optional scheme starts with `//`, and then
runs up to the next `/`, `?` or `#`.  A scheme-less bare domain therefore
has an empty netloc (it is parsed as a path). -/
def urlparseNetloc (s : List Char) : List Char :=
  match stripScheme s with
  | '/' :: '/' :: rest => rest.takeWhile (fun c => !(c = '/' || c = '?' || c = '#'))
  | _ => []

/-- Embedding of `extract_domain` (generate_candidates.py, lines 68-79):
lower-case the netloc of the parsed URL and strip a leading `www.`.  The
Python `except` branch (returning `None`) is unreachable for the string
inputs modelled here, so the function is total. -/
def extract_domain (url : String) : String :=
  let d := pyLower (urlparseNetloc url.data)
  if "www.".data.isPrefixOf d then ⟨d.drop 4⟩ else ⟨d⟩

end GenerateCandidates

/-! ### Data model (section 3 of the spec, JSON record schemas) -/

/-- Entry of the `cooperatives` array of the embeddings store
(`cooperative_embeddings.pkl`), as written by generate_embeddings.py. -/
structure CoopMeta where
  id : ℤ
  name : String
  website : Option String
  category : String
  type : String
  location : String
  embedding_index : ℕ
deriving DecidableEq, Inhabited, Repr

/-- One element of the `most_similar` list of a similarity result. -/
structure SimilarEntry where
  name : String
  category : String
  similarity : ℚ
deriving DecidableEq, Inhabited, Repr

/-- The `similarity_scores` object returned by `compute_similarity`. -/
structure SimilarityScores where
  mean_similarity : ℚ
  max_similarity : ℚ
  top_k_mean : ℚ
  most_similar : List SimilarEntry
deriving DecidableEq, Inhabited, Repr

/-- A candidate business record as read from `candidates.json`; optional
fields model Python `dict.get` defaults. -/
structure Candidate where
  name : String
  website : Option String
  location : Option String
  source : Option String
deriving DecidableEq, Inhabited, Repr

/-- A scored candidate record, as produced by `score_candidate` and stored
in `similarity_results.json`. -/
structure SimCandidate where
  name : String
  website : Option String
  location : String
  source : String
  content_extracted : Bool
  similarity_scores : Option SimilarityScores
  cooperative_score : ℚ
  content_preview : Option String
deriving DecidableEq, Inhabited, Repr

/-- A verified cooperative record of `labeled_data.json`.  Optional fields
are keys that only some producers write (`corp_type`/`corp_number` come
from the SoS import, `similarity_score` from the review loop,
`exported_to_website`/`export_date` from the website export); a missing
JSON key is `none`/`false`. -/
structure VerifiedCoop where
  id : ℤ
  name : String
  category : String
  website : Option String
  location : String
  verified_date : String
  source : String
  similarity_score : Option ℚ
  corp_type : Option String
  corp_number : Option String
  exported_to_website : Bool
  export_date : Option String
deriving DecidableEq, Inhabited, Repr

/-- A rejected candidate record of `labeled_data.json`. -/
structure RejectedRecord where
  name : String
  website : Option String
  location : String
  rejected_date : String
  similarity_score : ℚ
  reason : String
deriving DecidableEq, Inhabited, Repr

/-- One entry of `stats.precision_history`. -/
structure PrecisionSample where
  timestamp : String
  verified : ℕ
  rejected : ℕ
  precision : ℚ
  cumulative_verified : ℕ
  cumulative_reviewed : ℕ
deriving DecidableEq, Inhabited, Repr

/-- The `stats` object of `labeled_data.json`. -/
structure Stats where
  total_verified : ℕ
  total_rejected : ℕ
  total_reviewed : ℕ
  precision_history : List PrecisionSample
deriving DecidableEq, Inhabited, Repr

/-- The whole `labeled_data.json` store (`metadata.last_updated` is the
only metadata field the scripts touch). -/
structure LabeledData where
  verified_cooperatives : List VerifiedCoop
  rejected_candidates : List RejectedRecord
  stats : Stats
  last_updated : String
deriving DecidableEq, Inhabited, Repr

/-- A record of `sos_candidates.json` (Iowa Secretary of State extract). -/
structure SosCandidate where
  name : String
  corp_type : Option String
  corp_number : Option String
  category_hint : Option String
  location : Option String
deriving DecidableEq, Inhabited, Repr

/-- Python `max` over a list of integers.  Python raises `ValueError` on an
empty iterable; the model totalises that case to `0`, which no claim
exercises (every store the claims touch is non-empty). -/
def pyMaxInt (ids : List ℤ) : ℤ :=
  match ids with
  | [] => 0
  | x :: xs => xs.foldl max x

/-! ### generate_embeddings.py -/

namespace GenerateEmbeddings

/-- A cooperative record of `cooperative_content.json` (scraped content),
as consumed by generate_embeddings.py. -/
structure ContentCoop where
  id : ℤ
  name : String
  website : Option String
  category : String
  type : String
  location : String
  content : Option String
deriving DecidableEq, Inhabited, Repr

/-- Embedding of `create_text_for_embedding` (generate_embeddings.py,
lines 25-39): joins `"{name} - {type}"`, `"Location: {location}"` and,
when the content is truthy, its first 10000 characters, with blank lines.
Note the header uses the `type` field of the record, not `category`. -/
def create_text_for_embedding (coop : ContentCoop) : String :=
  let parts := [coop.name ++ " - " ++ coop.type, "Location: " ++ coop.location]
  let parts := parts ++ (match coop.content with
    | some c => if c = "" then [] else [pySlice c 10000]
    | none => [])
  String.intercalate "\n\n" parts

end GenerateEmbeddings

/-! ### similarity_search.py -/

namespace SimilaritySearch

/-- Dot product of two embedding vectors (`np.dot` on equal-length
vectors). -/
def dot (u v : List ℚ) : ℚ := (List.zipWith (· * ·) u v).sum

/-- The vector `np.dot(self.embeddings, candidate_embedding)`: one cosine
similarity per stored verified embedding, in storage order. -/
def similarities (E : List (List ℚ)) (c : List ℚ) : List ℚ :=
  E.map (fun e => dot e c)

/-- The `np.mean` of a vector (sum over length; the empty case, `NaN` in
numpy, is totalised to `0` and not exercised by any claim). -/
def pyMean (l : List ℚ) : ℚ := l.sum / l.length

/-- The `np.max` of a vector (totalised to `0` on the empty vector, which
numpy rejects and no claim exercises). -/
def pyMaxQ (l : List ℚ) : ℚ := l.max?.getD 0

/-- The index order realised by `np.argsort(l)`: ascending by value, ties
by ascending index.  numpy quicksort is insertion sort (hence stable) for
the short arrays at hand, and this relation is total, transitive and
antisymmetric, so every comparison sort yields the same index list. -/
def keyLe (l : List ℚ) (i j : ℕ) : Prop :=
  l.getD i 0 < l.getD j 0 ∨ (l.getD i 0 = l.getD j 0 ∧ i ≤ j)

instance (l : List ℚ) : DecidableRel (keyLe l) := fun i j => by
  unfold keyLe; infer_instance

instance (l : List ℚ) : IsTotal ℕ (keyLe l) where
  total i j := by
    unfold keyLe
    rcases lt_trichotomy (l.getD i 0) (l.getD j 0) with h | h | h
    · exact Or.inl (Or.inl h)
    · rcases Nat.le_total i j with hij | hij
      · exact Or.inl (Or.inr ⟨h, hij⟩)
      · exact Or.inr (Or.inr ⟨h.symm, hij⟩)
    · exact Or.inr (Or.inl h)

instance (l : List ℚ) : IsTrans ℕ (keyLe l) where
  trans i j k hij hjk := by
    unfold keyLe at hij hjk ⊢
    rcases hij with h1 | ⟨h1, h1n⟩
    · rcases hjk with h2 | ⟨h2, _⟩
      · exact Or.inl (h1.trans h2)
      · exact Or.inl (h2 ▸ h1)
    · rcases hjk with h2 | ⟨h2, h2n⟩
      · exact Or.inl (h1 ▸ h2)
      · exact Or.inr ⟨h1.trans h2, h1n.trans h2n⟩

/-- Embedding of `np.argsort(similarities)`. -/
def argsort (l : List ℚ) : List ℕ :=
  List.insertionSort (keyLe l) (List.range l.length)

/-- Embedding of `np.argsort(similarities)[-top_k:][::-1]` with
`top_k = 5`: the last (at most) five entries of the ascending argsort,
reversed. -/
def topIndices (l : List ℚ) : List ℕ :=
  ((argsort l).drop ((argsort l).length - 5)).reverse

/-- The values `similarities[top_indices]`. -/
def topVals (l : List ℚ) : List ℚ :=
  (topIndices l).map (fun i => l.getD i 0)

/-- The similarity values read off along the full argsort: the vector in
ascending sorted order. -/
def sortedVals (l : List ℚ) : List ℚ :=
  (argsort l).map (fun i => l.getD i 0)

/-- Embedding of `CooperativeSimilaritySearch.compute_similarity`
(similarity_search.py, lines 70-91): mean and max similarity, the top-k
mean used as the ranking score, and the `most_similar` detail list built
from the cooperative metadata at the top indices. -/
def compute_similarity (E : List (List ℚ)) (coops : List CoopMeta)
    (c : List ℚ) : SimilarityScores :=
  let sims := similarities E c
  { mean_similarity := pyMean sims
    max_similarity := pyMaxQ sims
    top_k_mean := pyMean (topVals sims)
    most_similar := (topIndices sims).map (fun i =>
      { name := (coops.getD i default).name
        category := (coops.getD i default).category
        similarity := sims.getD i 0 }) }

/-- Embedding of `CooperativeSimilaritySearch.create_embedding_text`
(similarity_search.py, lines 63-68): joins the bare name,
`"Location: {location}"` and, when the content is truthy, its first 10000
characters, with blank lines.  Unlike the batch generator, no
`" - {type}"` header is attached to the name. -/
def create_embedding_text (name location content : String) : String :=
  let parts := [name, "Location: " ++ location]
  let parts := parts ++ (if content = "" then [] else [pySlice content 10000])
  String.intercalate "\n\n" parts

/-- Embedding of `CooperativeSimilaritySearch.score_candidate`
(similarity_search.py, lines 93-124).  The embedding model and the
network fetch are passed as functions: `encode` models
`self.model.encode(text, normalize_embeddings=True)` and `fetch` models
`fetch_and_extract` (`none` is a failed fetch or extraction; the empty
string, falsy in Python, is likewise treated as no content). -/
def score_candidate (encode : String → List ℚ) (E : List (List ℚ))
    (coops : List CoopMeta) (fetch : String → Option String)
    (cand : Candidate) : SimCandidate :=
  let base : SimCandidate :=
    { name := cand.name
      website := cand.website
      location := cand.location.getD "Iowa"
      source := cand.source.getD "unknown"
      content_extracted := false
      similarity_scores := none
      cooperative_score := 0
      content_preview := none }
  match cand.website with
  | none => base
  | some w =>
    match fetch w with
    | none => base
    | some content =>
      if content = "" then base
      else
        let preview := if 500 < content.length then pySlice content 500 ++ "..." else content
        let text := create_embedding_text cand.name (cand.location.getD "Iowa") content
        let ss := compute_similarity E coops (encode text)
        { base with
            content_extracted := true
            content_preview := some preview
            similarity_scores := some ss
            cooperative_score := ss.top_k_mean }

end SimilaritySearch

/-! ### verify_candidates.py -/

namespace VerifyCandidates

/-- The `reviewed_websites` set of `get_unreviewed_candidates`: the
websites of every verified cooperative and every rejected candidate
(modelled as a list; only membership is used). -/
def reviewedWebsites (ld : LabeledData) : List (Option String) :=
  ld.verified_cooperatives.map (·.website) ++ ld.rejected_candidates.map (·.website)

/-- Sort order of the review queue: descending `cooperative_score`.  The
relation is a total preorder and Python `list.sort` is stable, as is
`List.insertionSort`, so the model reproduces the exact output order. -/
def scoreDesc (a b : SimCandidate) : Prop :=
  b.cooperative_score ≤ a.cooperative_score

instance : DecidableRel scoreDesc := fun a b => by
  unfold scoreDesc; infer_instance

/-- Embedding of `get_unreviewed_candidates` (verify_candidates.py, lines
41-60): drop candidates whose website is already reviewed or whose score
is below the threshold, then sort by descending score. -/
def get_unreviewed_candidates (ld : LabeledData) (results : List SimCandidate)
    (minScore : ℚ) : List SimCandidate :=
  let reviewed := reviewedWebsites ld
  let unreviewed := results.filter (fun c =>
    !(decide (c.website ∈ reviewed)) && decide (minScore ≤ c.cooperative_score))
  List.insertionSort scoreDesc unreviewed

/-- The distinct elements of a list in order of first appearance: the key
iteration order of the Python dict `category_counts`, whose keys are
inserted at the first occurrence of each category. -/
def firstsIn : List String → List String
  | [] => []
  | c :: rest => c :: (firstsIn rest).filter (fun x => x ≠ c)

/-- Python `max(iterable, key=f)`: the first element of the iterable
attaining the maximal key (later elements replace the current best only on
a strictly greater key). -/
def pyMaxByKey (f : String → ℕ) (k : String) (ks : List String) : String :=
  ks.foldl (fun best c => if f best < f c then c else best) k

/-- Embedding of `determine_category` (verify_candidates.py, lines
115-128): with a non-empty `most_similar` list, the most frequent
category among the top matches wins, count ties going to the category
appearing first (dict insertion order); otherwise `"other"`.  The dict
value for a key equals the number of occurrences of that category in the
`most_similar` list, i.e. `cats.count`. -/
def determine_category (cand : SimCandidate) : String :=
  match cand.similarity_scores with
  | none => "other"
  | some ss =>
    match ss.most_similar with
    | [] => "other"
    | _ :: _ =>
      let cats := ss.most_similar.map (·.category)
      match firstsIn cats with
      | [] => "other"
      | k :: ks => pyMaxByKey (fun c => cats.count c) k ks

/-- Embedding of `update_stats` (verify_candidates.py, lines 131-149):
recompute the totals from the array lengths, add the session counts to
`total_reviewed`, and append one precision sample when the session
reviewed at least one candidate.  `now` stands for
`datetime.now().isoformat()`. -/
def update_stats (ld : LabeledData) (verifiedCount rejectedCount : ℕ)
    (now : String) : LabeledData :=
  let tv := ld.verified_cooperatives.length
  let tr := ld.rejected_candidates.length
  let trev := ld.stats.total_reviewed + verifiedCount + rejectedCount
  let hist :=
    if 0 < verifiedCount + rejectedCount then
      ld.stats.precision_history ++
        [{ timestamp := now
           verified := verifiedCount
           rejected := rejectedCount
           precision := (verifiedCount : ℚ) / ((verifiedCount : ℚ) + rejectedCount)
           cumulative_verified := tv
           cumulative_reviewed := trev }]
    else ld.stats.precision_history
  { ld with
      stats :=
        { total_verified := tv
          total_rejected := tr
          total_reviewed := trev
          precision_history := hist }
      last_updated := now }

/-- The verified record built by an accept decision (verify_candidates.py,
lines 199-208): a fresh id `max(existing ids) + 1`, the chosen category, a
timestamp and the score that earned the review. -/
def newVerifiedCoop (verified : List VerifiedCoop) (cand : SimCandidate)
    (category now : String) : VerifiedCoop :=
  { id := pyMaxInt (verified.map (·.id)) + 1
    name := cand.name
    category := category
    website := cand.website
    location := cand.location
    verified_date := now
    source := "ml_pipeline"
    similarity_score := some cand.cooperative_score
    corp_type := none
    corp_number := none
    exported_to_website := false
    export_date := none }

/-- Effect of one accept decision on the verified array
(verify_candidates.py, lines 199-209): append the new record. -/
def acceptVerified (verified : List VerifiedCoop) (cand : SimCandidate)
    (category now : String) : List VerifiedCoop :=
  verified ++ [newVerifiedCoop verified cand category now]

/-- Effect of one accept decision on the whole labeled-data store. -/
def acceptCandidate (ld : LabeledData) (cand : SimCandidate)
    (category now : String) : LabeledData :=
  { ld with verified_cooperatives := acceptVerified ld.verified_cooperatives cand category now }

end VerifyCandidates

/-! ### import_sos_cooperatives.py -/

namespace ImportSos

/-- The corporation types treated as definitive cooperatives. -/
def coopCorpTypes : List String :=
  ["CO-OP NON STOCK", "CO-OP STOCK", "DOMESTIC COOPERATIVE",
   "CO-OP STOCK VALUE ADDED"]

/-- The high-confidence name patterns. -/
def highConfPatterns : List String :=
  ["rural electric", "electric cooperative", "power cooperative",
   "telephone cooperative", "telecom cooperative", "farmers cooperative",
   "cooperative elevator", "cooperative exchange", "credit union",
   "food co-op", "food cooperative"]

/-- The high-confidence filter of `main` (import_sos_cooperatives.py,
lines 81-91): a matching corporation type, or a name containing one of the
patterns. -/
def isHighConf (c : SosCandidate) : Bool :=
  (match c.corp_type with
   | some t => coopCorpTypes.contains t
   | none => false) ||
  highConfPatterns.any (fun p => containsSub p.data (pyLower c.name.data))

/-- Embedding of `determine_category` (import_sos_cooperatives.py, lines
41-60): keyword rules over the lower-cased name, falling back to the
category hint. -/
def determine_category (name hint : String) : String :=
  let n := pyLower name.data
  let has := fun (p : String) => containsSub p.data n
  if has "electric" || has "power" then "electric"
  else if has "telephone" || has "telecom" || has "communications" then "telecom"
  else if has "credit union" then "credit"
  else if ["farm", "grain", "elevator", "seed", "agri", "dairy", "livestock"].any
      (fun kw => has kw) then "agricultural"
  else if has "food" || has "market" || has "grocery" then "food"
  else if has "housing" || has "home" then "housing"
  else if hint ≠ "other" then hint
  else "other"

/-- The dedup key `name.lower().strip()` used by the import. -/
def normKey (s : String) : String := String.trim ⟨pyLower s.data⟩

/-- The verified record appended for one SoS candidate
(import_sos_cooperatives.py, lines 111-121). -/
def mkSosCoop (c : SosCandidate) (i : ℤ) (now : String) : VerifiedCoop :=
  { id := i
    name := c.name
    category := determine_category c.name (c.category_hint.getD "other")
    website := none
    location := c.location.getD "Iowa"
    verified_date := now
    source := "iowa_sos"
    similarity_score := none
    corp_type := c.corp_type
    corp_number := c.corp_number
    exported_to_website := false
    export_date := none }

/-- The append loop of `main` (import_sos_cooperatives.py, lines 102-125):
skip name duplicates, otherwise increment the id counter and append; newly
added names join the dedup set. -/
def importLoop (now : String) : List SosCandidate → List String → ℤ → List VerifiedCoop
  | [], _, _ => []
  | c :: rest, names, m =>
    if names.contains (normKey c.name) then importLoop now rest names m
    else mkSosCoop c (m + 1) now :: importLoop now rest (normKey c.name :: names) (m + 1)

/-- Effect of one run of import_sos_cooperatives.py on the verified array
(lines 72-125): the dedup set and the id counter are both computed from
the store before the loop. -/
def importSosVerified (verified : List VerifiedCoop) (cands : List SosCandidate)
    (now : String) : List VerifiedCoop :=
  let names := verified.map (fun c => normKey c.name)
  let hc := cands.filter isHighConf
  verified ++ importLoop now hc names (pyMaxInt (verified.map (·.id)))

end ImportSos

/-! ### batch_import.py -/

namespace BatchImport

/-- The exportability test of `get_exportable_cooperatives`
(batch_import.py, lines 47-59): ML-discovered, not yet exported, and with
`similarity_score` (defaulting to 1.0 when the key is absent) at least the
threshold. -/
def exportablePred (minScore : ℚ) (c : VerifiedCoop) : Bool :=
  c.source == "ml_pipeline" && !c.exported_to_website &&
    decide (minScore ≤ c.similarity_score.getD 1)

/-- The id reassignment of `main` (batch_import.py, lines 220-224): the
i-th exportable record (in store order) gets id `siteMaxId + i + 1`,
mutated in place in the store. -/
def reassignIds (p : VerifiedCoop → Bool) : List VerifiedCoop → ℤ → List VerifiedCoop
  | [], _ => []
  | c :: rest, m =>
    if p c then { c with id := m + 1 } :: reassignIds p rest (m + 1)
    else c :: reassignIds p rest m

/-- Effect of one run of batch_import.py on the persisted verified array
(lines 181-254): ids of all exportable records are reassigned
sequentially after the maximal website id; records whose screenshot
succeeded (`ok`) are flagged as exported, matched by website.  When no
screenshot succeeds the script aborts before saving, so the store is
unchanged. -/
def exportStep (verified : List VerifiedCoop) (siteMaxId : ℤ)
    (ok : VerifiedCoop → Bool) (minScore : ℚ) (now : String) : List VerifiedCoop :=
  let p := exportablePred minScore
  let v2 := reassignIds p verified siteMaxId
  let successful := (v2.filter p).filter ok
  if successful.isEmpty then verified
  else
    let successfulW := successful.map (·.website)
    v2.map (fun c =>
      if successfulW.contains c.website then
        { c with exported_to_website := true, export_date := some now }
      else c)

end BatchImport

/-! ### Operation sequences over the verified store -/

/-- The operations of the spec that touch the verified store: an accept in
the review loop, an SoS import run, an out-of-band edit that removes
records, and a website-export run. -/
inductive StoreOp where
  | accept (cand : SimCandidate) (category now : String)
  | sosImport (cands : List SosCandidate) (now : String)
  | outOfBandRemoval (keep : VerifiedCoop → Bool)
  | websiteExport (siteMaxId : ℤ) (ok : VerifiedCoop → Bool) (minScore : ℚ) (now : String)

/-- Apply one operation to the verified store. -/
def applyOp (s : List VerifiedCoop) : StoreOp → List VerifiedCoop
  | .accept cand category now => VerifyCandidates.acceptVerified s cand category now
  | .sosImport cands now => ImportSos.importSosVerified s cands now
  | .outOfBandRemoval keep => s.filter keep
  | .websiteExport siteMaxId ok minScore now => BatchImport.exportStep s siteMaxId ok minScore now

/-- Apply a sequence of operations, oldest first. -/
def applyOps (s : List VerifiedCoop) (ops : List StoreOp) : List VerifiedCoop :=
  ops.foldl applyOp s

/-- Operations that only append to the store: accepts and SoS imports. -/
def benignOp : StoreOp → Bool
  | .accept _ _ _ => true
  | .sosImport _ _ => true
  | _ => false

/-! ### Concrete fixtures used by witnesses and counterexamples -/

/-- A stored verified embedding record (first position). -/
def coopMetaA : CoopMeta :=
  { id := 1, name := "A", website := none, category := "electric",
    type := "electric", location := "Iowa", embedding_index := 0 }

/-- A stored verified embedding record (second position). -/
def coopMetaB : CoopMeta := { coopMetaA with id := 2, name := "B", embedding_index := 1 }

/-- A stored verified embedding record (third position, category credit). -/
def coopMetaC : CoopMeta :=
  { coopMetaA with id := 3, name := "C", category := "credit", embedding_index := 2 }

/-- A concrete candidate record. -/
def sampleCandidate : Candidate :=
  { name := "Cand Co-op", website := some "http://cand.example",
    location := none, source := none }

/-- The scenario of the category-inference claim: three verified
cooperatives with categories electric, electric, credit, all at equal
similarity to the candidate. -/
def scenarioScored : SimCandidate :=
  SimilaritySearch.score_candidate (fun _ => [1]) [[1], [1], [1]]
    [coopMetaA, coopMetaB, coopMetaC] (fun _ => some "farm cooperative site")
    sampleCandidate

/-- The similarity scores of the scenario candidate. -/
def scenarioScores : SimilarityScores :=
  SimilaritySearch.compute_similarity [[1], [1], [1]]
    [coopMetaA, coopMetaB, coopMetaC] [1]

/-- A stored verified cooperative with the given id and name. -/
def sampleCoop (i : ℤ) (nm : String) : VerifiedCoop :=
  { id := i, name := nm, category := "electric",
    website := some ("http://" ++ nm), location := "Iowa",
    verified_date := "2024-01-01", source := "ml_pipeline",
    similarity_score := none, corp_type := none, corp_number := none,
    exported_to_website := false, export_date := none }

/-- A scored candidate with the given name and score zero. -/
def sampleScored (nm : String) : SimCandidate :=
  { name := nm, website := some ("http://" ++ nm), location := "Iowa",
    source := "web_search", content_extracted := true,
    similarity_scores := none, cooperative_score := 0,
    content_preview := none }

/-- A labeled-data store whose single verified record has id 42. -/
def sampleLabeled42 : LabeledData :=
  { verified_cooperatives := [sampleCoop 42 "Base"]
    rejected_candidates := []
    stats := { total_verified := 1, total_rejected := 0, total_reviewed := 0,
               precision_history := [] }
    last_updated := "2024-01-01" }

/-! ## Theorems -/

/-! ### Helper lemmas about Python max -/

theorem le_foldl_max (x : ℤ) (l : List ℤ) : x ≤ l.foldl max x := by
  induction l generalizing x with
  | nil => exact le_refl x
  | cons y ys ih => exact le_trans (le_max_left x y) (ih (max x y))

theorem mem_le_foldl_max {a : ℤ} {l : List ℤ} (x : ℤ) (h : a ∈ l) :
    a ≤ l.foldl max x := by
  induction l generalizing x with
  | nil => cases h
  | cons y ys ih =>
    rcases List.mem_cons.mp h with rfl | h'
    · exact le_trans (le_max_right x a) (le_foldl_max _ ys)
    · exact ih (max x y) h'

theorem le_pyMaxInt {a : ℤ} {l : List ℤ} (h : a ∈ l) : a ≤ pyMaxInt l := by
  cases l with
  | nil => cases h
  | cons x xs =>
    rcases List.mem_cons.mp h with rfl | h'
    · exact le_foldl_max a xs
    · exact mem_le_foldl_max x h'

theorem pyMaxInt_append_singleton (l : List ℤ) (a : ℤ) (h : l ≠ []) :
    pyMaxInt (l ++ [a]) = max (pyMaxInt l) a := by
  cases l with
  | nil => exact absurd rfl h
  | cons x xs =>
    show pyMaxInt (x :: (xs ++ [a])) = max (pyMaxInt (x :: xs)) a
    show (xs ++ [a]).foldl max x = max (xs.foldl max x) a
    rw [List.foldl_append]
    rfl

/-! ### C10: a session with no accept and no reject leaves the history and
the reviewed total unchanged and recomputes the totals -/

/-- C10.  In a review session in which no candidate is accepted or
rejected, `update_stats` (called by `main` with both session counters
zero) appends nothing to `precision_history`, leaves `total_reviewed`
unchanged, and recomputes `total_verified` and `total_rejected` as the
lengths of the corresponding arrays. -/
theorem update_stats_no_decisions (ld : LabeledData) (now : String) :
    (VerifyCandidates.update_stats ld 0 0 now).stats.precision_history
        = ld.stats.precision_history ∧
    (VerifyCandidates.update_stats ld 0 0 now).stats.total_reviewed
        = ld.stats.total_reviewed ∧
    (VerifyCandidates.update_stats ld 0 0 now).stats.total_verified
        = ld.verified_cooperatives.length ∧
    (VerifyCandidates.update_stats ld 0 0 now).stats.total_rejected
        = ld.rejected_candidates.length := by
  refine ⟨?_, ?_, ?_, ?_⟩ <;> simp [VerifyCandidates.update_stats]

/-! ### C1: reviewed websites are never re-listed, skipped candidates
remain eligible -/

/-- C1.  A candidate appears in the unreviewed listing produced by
`get_unreviewed_candidates` exactly when it is among the similarity
results, its website is in neither the verified nor the rejected array
(so a verified or rejected website is never re-listed, regardless of
score, while a merely skipped candidate is re-surfaced), and its score
meets the threshold. -/
theorem get_unreviewed_candidates_mem (ld : LabeledData)
    (results : List SimCandidate) (minScore : ℚ) (c : SimCandidate) :
    c ∈ VerifyCandidates.get_unreviewed_candidates ld results minScore ↔
      c ∈ results ∧
      c.website ∉ ld.verified_cooperatives.map (·.website) ∧
      c.website ∉ ld.rejected_candidates.map (·.website) ∧
      minScore ≤ c.cooperative_score := by
  unfold VerifyCandidates.get_unreviewed_candidates
  rw [List.mem_insertionSort, List.mem_filter]
  simp only [VerifyCandidates.reviewedWebsites, List.mem_append,
    Bool.and_eq_true, Bool.not_eq_true', decide_eq_false_iff_not,
    decide_eq_true_eq, not_or]
  tauto

/-! ### C6: a candidate without fetchable content scores exactly zero and
has no similarity detail -/

/-- C6.  When a candidate has no website, or fetching/extraction fails
(`none`), or yields empty (falsy) content, `score_candidate` returns
cooperative score exactly 0 and no `similarity_scores` detail (and marks
the content as not extracted). -/
theorem score_candidate_no_content (encode : String → List ℚ)
    (E : List (List ℚ)) (coops : List CoopMeta)
    (fetch : String → Option String) (cand : Candidate)
    (h : ∀ w, cand.website = some w → fetch w = none ∨ fetch w = some "") :
    (SimilaritySearch.score_candidate encode E coops fetch cand).cooperative_score = 0 ∧
    (SimilaritySearch.score_candidate encode E coops fetch cand).similarity_scores = none ∧
    (SimilaritySearch.score_candidate encode E coops fetch cand).content_extracted = false := by
  unfold SimilaritySearch.score_candidate
  cases hw : cand.website with
  | none => exact ⟨rfl, rfl, rfl⟩
  | some w => rcases h w hw with h' | h' <;> simp [h']

/-- Witness for C6 at a concrete candidate whose fetch fails. -/
theorem score_candidate_no_content_witness :
    (SimilaritySearch.score_candidate (fun _ => [1]) [[1]] [coopMetaA]
        (fun _ => none) sampleCandidate).cooperative_score = 0 ∧
    (SimilaritySearch.score_candidate (fun _ => [1]) [[1]] [coopMetaA]
        (fun _ => none) sampleCandidate).similarity_scores = none ∧
    (SimilaritySearch.score_candidate (fun _ => [1]) [[1]] [coopMetaA]
        (fun _ => none) sampleCandidate).content_extracted = false :=
  score_candidate_no_content (fun _ => [1]) [[1]] [coopMetaA]
    (fun _ => none) sampleCandidate (fun _ _ => Or.inl rfl)

/-! ### C9: two accepts from max id 42 assign 43 then 44 -/

/-- C9.  Starting a session on a store whose maximal verified id is 42,
each accept allocates `max(existing ids) + 1` and appends the record
before the next decision, so accepting two candidates appends records
with ids 43 and 44, in the order accepted and carrying the names of the
accepted candidates. -/
theorem accept_two_assigns_43_44 (ld : LabeledData) (c1 c2 : SimCandidate)
    (cat1 cat2 t1 t2 : String)
    (h : pyMaxInt (ld.verified_cooperatives.map (·.id)) = 42) :
    ∃ r1 r2 : VerifiedCoop,
      (VerifyCandidates.acceptCandidate
          (VerifyCandidates.acceptCandidate ld c1 cat1 t1) c2 cat2 t2).verified_cooperatives
        = ld.verified_cooperatives ++ [r1, r2] ∧
      r1.id = 43 ∧ r2.id = 44 ∧ r1.name = c1.name ∧ r2.name = c2.name := by
  have hne : ld.verified_cooperatives.map (·.id) ≠ [] := by
    intro hnil
    rw [hnil] at h
    exact absurd h (by decide)
  refine ⟨VerifyCandidates.newVerifiedCoop ld.verified_cooperatives c1 cat1 t1,
    VerifyCandidates.newVerifiedCoop
      (VerifyCandidates.acceptVerified ld.verified_cooperatives c1 cat1 t1) c2 cat2 t2,
    ?_, ?_, ?_, rfl, rfl⟩
  · show VerifyCandidates.acceptVerified
        (VerifyCandidates.acceptVerified ld.verified_cooperatives c1 cat1 t1) c2 cat2 t2 = _
    unfold VerifyCandidates.acceptVerified
    rw [List.append_assoc]
    rfl
  · show pyMaxInt (ld.verified_cooperatives.map (·.id)) + 1 = 43
    rw [h]
    decide
  · show pyMaxInt ((ld.verified_cooperatives
        ++ [VerifyCandidates.newVerifiedCoop ld.verified_cooperatives c1 cat1 t1]).map (·.id)) + 1 = 44
    rw [List.map_append]
    show pyMaxInt (ld.verified_cooperatives.map (·.id)
        ++ [(VerifyCandidates.newVerifiedCoop ld.verified_cooperatives c1 cat1 t1).id]) + 1 = 44
    rw [pyMaxInt_append_singleton _ _ hne]
    show max (pyMaxInt (ld.verified_cooperatives.map (·.id)))
        (pyMaxInt (ld.verified_cooperatives.map (·.id)) + 1) + 1 = 44
    rw [h]
    decide

/-! ### C2: id allocation over operation sequences -/

theorem importLoop_ids (now : String) (cands : List SosCandidate) :
    ∀ (names : List String) (m : ℤ),
      (∀ d ∈ ImportSos.importLoop now cands names m, m < d.id) ∧
      (ImportSos.importLoop now cands names m).Pairwise (fun a b => a.id < b.id) := by
  induction cands with
  | nil =>
    intro names m
    simp only [ImportSos.importLoop]
    exact ⟨fun d hd => absurd hd (List.not_mem_nil d), List.Pairwise.nil⟩
  | cons c rest ih =>
    intro names m
    unfold ImportSos.importLoop
    cases hdup : names.contains (ImportSos.normKey c.name) with
    | true =>
      simp only [if_true]
      exact ih names m
    | false =>
      simp only [Bool.false_eq_true, if_false]
      obtain ⟨ih1, ih2⟩ := ih (ImportSos.normKey c.name :: names) (m + 1)
      constructor
      · intro d hd
        rcases List.mem_cons.mp hd with rfl | hd'
        · show m < m + 1
          omega
        · have := ih1 d hd'
          omega
      · refine List.Pairwise.cons ?_ ih2
        intro b hb
        exact ih1 b hb

theorem applyOp_benign (s : List VerifiedCoop) (op : StoreOp)
    (hb : benignOp op = true) :
    ∃ t, applyOp s op = s ++ t ∧
      (∀ c ∈ s, ∀ d ∈ t, c.id < d.id) ∧
      t.Pairwise (fun a b => a.id < b.id) := by
  cases op with
  | accept cand category now =>
    refine ⟨[VerifyCandidates.newVerifiedCoop s cand category now], rfl, ?_, ?_⟩
    · intro c hc d hd
      rcases List.mem_singleton.mp hd with rfl
      show c.id < pyMaxInt (s.map (·.id)) + 1
      have hle : c.id ≤ pyMaxInt (s.map (·.id)) :=
        le_pyMaxInt (List.mem_map_of_mem _ hc)
      omega
    · exact List.pairwise_singleton _ _
  | sosImport cands now =>
    have heq : applyOp s (StoreOp.sosImport cands now)
        = s ++ ImportSos.importLoop now (cands.filter ImportSos.isHighConf)
            (s.map fun c => ImportSos.normKey c.name) (pyMaxInt (s.map (·.id))) := rfl
    refine ⟨ImportSos.importLoop now (cands.filter ImportSos.isHighConf)
        (s.map fun c => ImportSos.normKey c.name) (pyMaxInt (s.map (·.id))),
      heq, ?_, (importLoop_ids now _ _ _).2⟩
    intro c hc d hd
    have h1 := (importLoop_ids now (cands.filter ImportSos.isHighConf)
      (s.map fun c => ImportSos.normKey c.name) (pyMaxInt (s.map (·.id)))).1 d hd
    have h2 : c.id ≤ pyMaxInt (s.map (·.id)) :=
      le_pyMaxInt (List.mem_map_of_mem _ hc)
    omega
  | outOfBandRemoval keep => simp [benignOp] at hb
  | websiteExport siteMaxId ok minScore now => simp [benignOp] at hb

/-- C2 (amended).  Over any sequence of accepts and SoS imports, with no
out-of-band removal and no website export, the store only grows: the
records already present keep their ids, and every newly appended record
receives an id strictly greater than every id present when it was
allocated, so no id is ever assigned twice to different records. -/
theorem verified_ids_never_reused_without_removal (ops : List StoreOp)
    (s : List VerifiedCoop) (h : ∀ op ∈ ops, benignOp op = true) :
    ∃ t, applyOps s ops = s ++ t ∧
      (∀ c ∈ s, ∀ d ∈ t, c.id < d.id) ∧
      t.Pairwise (fun a b => a.id < b.id) := by
  induction ops generalizing s with
  | nil =>
    refine ⟨[], by simp [applyOps], ?_, List.Pairwise.nil⟩
    intro c hc d hd
    cases hd
  | cons op ops ih =>
    obtain ⟨t1, ht1, hcross1, hpw1⟩ := applyOp_benign s op (h op (List.mem_cons_self op ops))
    obtain ⟨t2, ht2, hcross2, hpw2⟩ := ih (applyOp s op) (fun o ho => h o (List.mem_cons_of_mem _ ho))
    refine ⟨t1 ++ t2, ?_, ?_, ?_⟩
    · show applyOps (applyOp s op) ops = s ++ (t1 ++ t2)
      rw [ht2, ht1, List.append_assoc]
    · intro c hc d hd
      rcases List.mem_append.mp hd with hd1 | hd2
      · exact hcross1 c hc d hd1
      · exact hcross2 c (by rw [ht1]; exact List.mem_append_left _ hc) d hd2
    · rw [List.pairwise_append]
      refine ⟨hpw1, hpw2, ?_⟩
      intro a ha b hb
      exact hcross2 a (by rw [ht1]; exact List.mem_append_right _ ha) b hb

/-- Witness for the amended C2 on a concrete benign operation sequence. -/
theorem verified_ids_never_reused_without_removal_witness :
    ∃ t, applyOps [sampleCoop 42 "Base"]
        [.accept (sampleScored "X") "food" "t1", .sosImport [] "t2"]
      = [sampleCoop 42 "Base"] ++ t ∧
      (∀ c ∈ [sampleCoop 42 "Base"], ∀ d ∈ t, c.id < d.id) ∧
      t.Pairwise (fun a b : VerifiedCoop => a.id < b.id) :=
  verified_ids_never_reused_without_removal
    [.accept (sampleScored "X") "food" "t1", .sosImport [] "t2"]
    [sampleCoop 42 "Base"] (by simp [benignOp])

/-- Counterexample to C2 as stated: starting from a store holding ids 1
and 2, an out-of-band removal of the record with id 2 (named B) followed
by one accept assigns id `max + 1 = 2` to the newly accepted record
(named C), so the id 2, once assigned to B, is assigned again to a
different record. -/
theorem verified_id_reused_counterexample :
    (applyOps [sampleCoop 1 "A", sampleCoop 2 "B"]
        [.outOfBandRemoval (fun c => c.id == 1),
         .accept (sampleScored "C") "other" "t"]).map (fun c => (c.id, c.name))
      = [(1, "A"), (2, "C")] ∧
    (sampleCoop 2 "B").id = 2 ∧ (sampleCoop 2 "B").name ≠ "C" := by
  refine ⟨by decide, rfl, by decide⟩

/-- Witness for C9 at a concrete store with maximal id 42. -/
theorem accept_two_assigns_43_44_witness :
    ∃ r1 r2 : VerifiedCoop,
      (VerifyCandidates.acceptCandidate
          (VerifyCandidates.acceptCandidate sampleLabeled42 (sampleScored "X") "food" "t1")
          (sampleScored "Y") "food" "t2").verified_cooperatives
        = sampleLabeled42.verified_cooperatives ++ [r1, r2] ∧
      r1.id = 43 ∧ r2.id = 44 ∧
      r1.name = (sampleScored "X").name ∧ r2.name = (sampleScored "Y").name :=
  accept_two_assigns_43_44 sampleLabeled42 (sampleScored "X") (sampleScored "Y")
    "food" "food" "t1" "t2" (by decide)

/-! ### C7: category inference is a first-appearance-tie-broken majority
vote -/

theorem pyMaxByKey_first_max (f : String → ℕ) (ks : List String) :
    ∀ k : String, ∃ pre post,
      k :: ks = pre ++ VerifyCandidates.pyMaxByKey f k ks :: post ∧
      (∀ c ∈ pre, f c < f (VerifyCandidates.pyMaxByKey f k ks)) ∧
      (∀ c ∈ post, f c ≤ f (VerifyCandidates.pyMaxByKey f k ks)) := by
  induction ks with
  | nil =>
    intro k
    refine ⟨[], [], rfl, ?_, ?_⟩ <;> intro c hc <;> cases hc
  | cons c rest ih =>
    intro k
    by_cases hfc : f k < f c
    · have hr : VerifyCandidates.pyMaxByKey f k (c :: rest)
          = VerifyCandidates.pyMaxByKey f c rest := by
        show VerifyCandidates.pyMaxByKey f (if f k < f c then c else k) rest = _
        rw [if_pos hfc]
      obtain ⟨pre, post, hdecomp, hpre, hpost⟩ := ih c
      rw [hr]
      cases pre with
      | nil =>
        simp only [List.nil_append] at hdecomp
        injection hdecomp with hc1 hrest
        refine ⟨[k], rest, ?_, ?_, ?_⟩
        · show k :: c :: rest = k :: VerifyCandidates.pyMaxByKey f c rest :: rest
          rw [← hc1]
        · intro x hx
          rcases List.mem_singleton.mp hx with rfl
          rw [← hc1]
          exact hfc
        · intro x hx
          exact hpost x (hrest ▸ hx)
      | cons p ps =>
        rw [List.cons_append] at hdecomp
        injection hdecomp with hc1 hrest
        have hpr : f p < f (VerifyCandidates.pyMaxByKey f c rest) :=
          hpre p (List.mem_cons_self p ps)
        have hcr : f c < f (VerifyCandidates.pyMaxByKey f c rest) := by
          rw [← hc1] at hpr; exact hpr
        refine ⟨k :: c :: ps, post, ?_, ?_, hpost⟩
        · exact congrArg (fun t => k :: c :: t) hrest
        · intro x hx
          rcases List.mem_cons.mp hx with rfl | hx'
          · exact lt_trans hfc hcr
          · rcases List.mem_cons.mp hx' with rfl | hx''
            · exact hcr
            · exact hpre x (List.mem_cons_of_mem _ hx'')
    · have hr : VerifyCandidates.pyMaxByKey f k (c :: rest)
          = VerifyCandidates.pyMaxByKey f k rest := by
        show VerifyCandidates.pyMaxByKey f (if f k < f c then c else k) rest = _
        rw [if_neg hfc]
      obtain ⟨pre, post, hdecomp, hpre, hpost⟩ := ih k
      rw [hr]
      cases pre with
      | nil =>
        simp only [List.nil_append] at hdecomp
        injection hdecomp with hk1 hrest
        refine ⟨[], c :: rest, ?_, ?_, ?_⟩
        · show k :: c :: rest = VerifyCandidates.pyMaxByKey f k rest :: c :: rest
          rw [← hk1]
        · intro x hx
          cases hx
        · intro x hx
          rcases List.mem_cons.mp hx with rfl | hx'
          · rw [← hk1]
            exact le_of_not_lt hfc
          · exact hpost x (hrest ▸ hx')
      | cons p ps =>
        rw [List.cons_append] at hdecomp
        injection hdecomp with hk1 hrest
        have hpr : f p < f (VerifyCandidates.pyMaxByKey f k rest) :=
          hpre p (List.mem_cons_self p ps)
        have hkr : f k < f (VerifyCandidates.pyMaxByKey f k rest) := by
          rw [← hk1] at hpr; exact hpr
        refine ⟨k :: c :: ps, post, ?_, ?_, hpost⟩
        · exact congrArg (fun t => k :: c :: t) hrest
        · intro x hx
          rcases List.mem_cons.mp hx with rfl | hx'
          · exact hkr
          · rcases List.mem_cons.mp hx' with rfl | hx''
            · exact lt_of_le_of_lt (le_of_not_lt hfc) hkr
            · exact hpre x (List.mem_cons_of_mem _ hx'')

theorem mem_firstsIn (l : List String) (x : String) :
    x ∈ VerifyCandidates.firstsIn l ↔ x ∈ l := by
  induction l with
  | nil => simp [VerifyCandidates.firstsIn]
  | cons c rest ih =>
    simp only [VerifyCandidates.firstsIn, List.mem_cons, List.mem_filter,
      decide_eq_true_eq]
    constructor
    · rintro (rfl | ⟨hx, _⟩)
      · exact Or.inl rfl
      · exact Or.inr (ih.mp hx)
    · rintro (rfl | hx)
      · exact Or.inl rfl
      · by_cases hxc : x = c
        · exact Or.inl hxc
        · exact Or.inr ⟨ih.mpr hx, hxc⟩

theorem first_max_of_firstsIn (cats : List String) (k : String) (ks : List String)
    (hf : VerifyCandidates.firstsIn cats = k :: ks) :
    (∀ c ∈ cats, cats.count c
        ≤ cats.count (VerifyCandidates.pyMaxByKey (fun c => cats.count c) k ks)) ∧
    ∃ pre post,
      VerifyCandidates.firstsIn cats
        = pre ++ VerifyCandidates.pyMaxByKey (fun c => cats.count c) k ks :: post ∧
      ∀ c ∈ pre, cats.count c
        < cats.count (VerifyCandidates.pyMaxByKey (fun c => cats.count c) k ks) := by
  obtain ⟨pre, post, hdecomp, hpre, hpost⟩ :=
    pyMaxByKey_first_max (fun c => cats.count c) ks k
  refine ⟨?_, pre, post, by rw [hf, hdecomp], hpre⟩
  intro c hc
  have hcf : c ∈ VerifyCandidates.firstsIn cats := (mem_firstsIn cats c).mpr hc
  rw [hf, hdecomp] at hcf
  rcases List.mem_append.mp hcf with hcp | hcr
  · exact le_of_lt (hpre c hcp)
  · rcases List.mem_cons.mp hcr with rfl | hcr'
    · exact le_refl _
    · exact hpost c hcr'

/-- C7.  For a candidate with a non-empty `most_similar` list,
`determine_category` returns a category whose occurrence count among the
top matches is maximal, and which, inside the first-appearance ordering
of the categories (the dict key order), comes before every other category
attaining that count: the decomposition of `firstsIn` below has only
strictly smaller counts before the returned category. -/
theorem determine_category_majority (cand : SimCandidate) (ss : SimilarityScores)
    (h1 : cand.similarity_scores = some ss) (h2 : ss.most_similar ≠ []) :
    (∀ c ∈ ss.most_similar.map (·.category),
        (ss.most_similar.map (·.category)).count c
          ≤ (ss.most_similar.map (·.category)).count
              (VerifyCandidates.determine_category cand)) ∧
    ∃ pre post,
      VerifyCandidates.firstsIn (ss.most_similar.map (·.category))
        = pre ++ VerifyCandidates.determine_category cand :: post ∧
      ∀ c ∈ pre,
        (ss.most_similar.map (·.category)).count c
          < (ss.most_similar.map (·.category)).count
              (VerifyCandidates.determine_category cand) := by
  rcases hms : ss.most_similar with _ | ⟨e, es⟩
  · exact absurd hms h2
  have hfirst : VerifyCandidates.firstsIn ((e :: es).map (·.category))
      = e.category ::
        (VerifyCandidates.firstsIn (es.map (·.category))).filter
          (fun x => x ≠ e.category) := rfl
  have hdc : VerifyCandidates.determine_category cand
      = VerifyCandidates.pyMaxByKey
          (fun c => ((e :: es).map (·.category)).count c) (e.category)
          ((VerifyCandidates.firstsIn (es.map (·.category))).filter
            (fun x => x ≠ e.category)) := by
    simp only [VerifyCandidates.determine_category, h1, hms]
    rfl
  rw [hdc]
  exact first_max_of_firstsIn ((e :: es).map (·.category)) _ _ hfirst

/-- Witness for C7 at the concrete scenario of the spec: an embeddings
store of three verified cooperatives with categories electric, electric,
credit, all equally similar to the candidate, for which the inferred
category is electric (the majority). -/
theorem determine_category_majority_witness :
    ((∀ c ∈ scenarioScores.most_similar.map (·.category),
        (scenarioScores.most_similar.map (·.category)).count c
          ≤ (scenarioScores.most_similar.map (·.category)).count
              (VerifyCandidates.determine_category scenarioScored)) ∧
      ∃ pre post,
        VerifyCandidates.firstsIn (scenarioScores.most_similar.map (·.category))
          = pre ++ VerifyCandidates.determine_category scenarioScored :: post ∧
        ∀ c ∈ pre,
          (scenarioScores.most_similar.map (·.category)).count c
            < (scenarioScores.most_similar.map (·.category)).count
                (VerifyCandidates.determine_category scenarioScored)) ∧
    VerifyCandidates.determine_category scenarioScored = "electric" := by
  have hss : scenarioScored.similarity_scores = some scenarioScores := rfl
  have hne : scenarioScores.most_similar ≠ [] := by
    simp [scenarioScores, SimilaritySearch.compute_similarity,
      SimilaritySearch.similarities, SimilaritySearch.dot,
      SimilaritySearch.topIndices, SimilaritySearch.argsort,
      SimilaritySearch.keyLe, List.insertionSort, List.orderedInsert,
      coopMetaA, coopMetaB, coopMetaC]
  have hel : VerifyCandidates.determine_category scenarioScored = "electric" := by
    have hms : scenarioScores.most_similar =
        [{ name := "C", category := "credit", similarity := 1 * 1 + 0 },
         { name := "B", category := "electric", similarity := 1 * 1 + 0 },
         { name := "A", category := "electric", similarity := 1 * 1 + 0 }] := by
      simp [scenarioScores, SimilaritySearch.compute_similarity,
        SimilaritySearch.similarities, SimilaritySearch.dot,
        SimilaritySearch.topIndices, SimilaritySearch.argsort,
        SimilaritySearch.keyLe, List.insertionSort, List.orderedInsert,
        coopMetaA, coopMetaB, coopMetaC]
    simp [VerifyCandidates.determine_category, hss, hms,
      VerifyCandidates.firstsIn, VerifyCandidates.pyMaxByKey]
  exact ⟨determine_category_majority scenarioScored scenarioScores hss hne, hel⟩

/-! ### C3: order of the top-k list -/

theorem argsort_sorted (l : List ℚ) :
    (SimilaritySearch.argsort l).Sorted (SimilaritySearch.keyLe l) :=
  List.sorted_insertionSort _ _

theorem argsort_perm (l : List ℚ) :
    List.Perm (SimilaritySearch.argsort l) (List.range l.length) :=
  List.perm_insertionSort _ _

theorem argsort_nodup (l : List ℚ) : (SimilaritySearch.argsort l).Nodup :=
  (argsort_perm l).symm.nodup (List.nodup_range _)

theorem argsort_length (l : List ℚ) :
    (SimilaritySearch.argsort l).length = l.length := by
  rw [(argsort_perm l).length_eq, List.length_range]

/-- The top-k index list is ordered by strictly decreasing key, where the
key compares first by similarity (descending) and breaks exact similarity
ties by the LATER stored position first: reversing the ascending stable
argsort flips the tie order. -/
theorem topIndices_strict_order (l : List ℚ) :
    (SimilaritySearch.topIndices l).Pairwise (fun i j =>
      l.getD j 0 < l.getD i 0 ∨ (l.getD i 0 = l.getD j 0 ∧ j < i)) := by
  have h1 : (SimilaritySearch.argsort l).Pairwise (SimilaritySearch.keyLe l) :=
    argsort_sorted l
  have h2 := List.Pairwise.sublist
    (List.drop_sublist ((SimilaritySearch.argsort l).length - 5) _) h1
  have hnd : ((SimilaritySearch.argsort l).drop
      ((SimilaritySearch.argsort l).length - 5)).Nodup :=
    List.Nodup.sublist (List.drop_sublist _ _) (argsort_nodup l)
  have h3 := h2.and hnd
  unfold SimilaritySearch.topIndices
  rw [List.pairwise_reverse]
  refine h3.imp ?_
  intro i j hij
  rcases hij with ⟨hk, hne⟩
  rcases hk with hlt | ⟨heq, hle⟩
  · exact Or.inl hlt
  · exact Or.inr ⟨heq.symm, lt_of_le_of_ne hle hne⟩

/-- C3 (amended).  The `most_similar` list returned by
`compute_similarity` is exactly the metadata read off along the top-k
index list, and that index list is ordered by non-increasing similarity
with exact ties broken by the later stored position first (not
first-seen-first: the code reverses a stable ascending argsort). -/
theorem compute_similarity_tie_order (E : List (List ℚ))
    (coops : List CoopMeta) (c : List ℚ) :
    (SimilaritySearch.compute_similarity E coops c).most_similar
      = (SimilaritySearch.topIndices (SimilaritySearch.similarities E c)).map
          (fun i =>
            { name := (coops.getD i default).name
              category := (coops.getD i default).category
              similarity := (SimilaritySearch.similarities E c).getD i 0 }) ∧
    (SimilaritySearch.topIndices (SimilaritySearch.similarities E c)).Pairwise
      (fun i j =>
        (SimilaritySearch.similarities E c).getD j 0
            < (SimilaritySearch.similarities E c).getD i 0 ∨
        ((SimilaritySearch.similarities E c).getD i 0
            = (SimilaritySearch.similarities E c).getD j 0 ∧ j < i)) :=
  ⟨rfl, topIndices_strict_order _⟩

/-- Counterexample to C3 as stated: with two identical verified
embeddings (equal similarity 1 to the candidate), the top-k list is
`[B, A]`, the record stored LATER first, not the first-seen order
`[A, B]` the claim requires. -/
theorem compute_similarity_first_seen_counterexample :
    (SimilaritySearch.compute_similarity [[1], [1]] [coopMetaA, coopMetaB]
        [1]).most_similar.map (·.name) = ["B", "A"] ∧
    (["B", "A"] : List String) ≠ ["A", "B"] := by
  constructor
  · simp [SimilaritySearch.compute_similarity, SimilaritySearch.similarities,
      SimilaritySearch.dot, SimilaritySearch.topIndices,
      SimilaritySearch.argsort, SimilaritySearch.keyLe, List.insertionSort,
      List.orderedInsert, coopMetaA, coopMetaB]
  · decide

/-! ### C8: the ranking score is invariant under storage order -/

theorem range_map_getD (l : List ℚ) :
    (List.range l.length).map (fun i => l.getD i 0) = l := by
  apply List.ext_getElem
  · simp
  · intro i h1 h2
    rw [List.getElem_map, List.getElem_range]
    exact List.getD_eq_getElem l 0 h2

theorem sortedVals_perm (l : List ℚ) : List.Perm (SimilaritySearch.sortedVals l) l := by
  have h := (argsort_perm l).map (fun i => l.getD i 0)
  rw [range_map_getD] at h
  exact h

theorem sortedVals_sorted (l : List ℚ) :
    (SimilaritySearch.sortedVals l).Sorted (· ≤ ·) := by
  unfold SimilaritySearch.sortedVals
  refine List.Pairwise.map _ ?_ (argsort_sorted l)
  intro i j hij
  rcases hij with hlt | ⟨heq, _⟩
  · exact le_of_lt hlt
  · exact le_of_eq heq

theorem sortedVals_eq_of_perm {l l' : List ℚ} (h : List.Perm l l') :
    SimilaritySearch.sortedVals l = SimilaritySearch.sortedVals l' :=
  List.eq_of_perm_of_sorted
    ((sortedVals_perm l).trans (h.trans (sortedVals_perm l').symm))
    (sortedVals_sorted l) (sortedVals_sorted l')

theorem topVals_eq_drop (l : List ℚ) :
    SimilaritySearch.topVals l
      = ((SimilaritySearch.sortedVals l).drop (l.length - 5)).reverse := by
  unfold SimilaritySearch.topVals SimilaritySearch.topIndices
      SimilaritySearch.sortedVals
  rw [List.map_reverse, List.map_drop, argsort_length]

theorem topVals_eq_of_perm {l l' : List ℚ} (h : List.Perm l l') :
    SimilaritySearch.topVals l = SimilaritySearch.topVals l' := by
  rw [topVals_eq_drop, topVals_eq_drop, sortedVals_eq_of_perm h, h.length_eq]

/-- C8.  The `top_k_mean` score of a candidate is invariant under any
permutation of the stored verified-embedding rows (with the metadata
permuted in any way): it is a pure function of the multiset of verified
embeddings, not of their storage order. -/
theorem top_k_mean_storage_invariant (E E' : List (List ℚ))
    (coops coops' : List CoopMeta) (c : List ℚ) (h : E.Perm E') :
    (SimilaritySearch.compute_similarity E coops c).top_k_mean
      = (SimilaritySearch.compute_similarity E' coops' c).top_k_mean := by
  have hs : List.Perm (SimilaritySearch.similarities E c)
      (SimilaritySearch.similarities E' c) :=
    h.map (fun e => SimilaritySearch.dot e c)
  show SimilaritySearch.pyMean (SimilaritySearch.topVals (SimilaritySearch.similarities E c))
      = SimilaritySearch.pyMean (SimilaritySearch.topVals (SimilaritySearch.similarities E' c))
  rw [topVals_eq_of_perm hs]

/-- Witness for C8 on a concrete two-row store and its swap. -/
theorem top_k_mean_storage_invariant_witness :
    (SimilaritySearch.compute_similarity [[1], [2]] [coopMetaA, coopMetaB]
        [3]).top_k_mean
      = (SimilaritySearch.compute_similarity [[2], [1]] [coopMetaB, coopMetaA]
          [3]).top_k_mean :=
  top_k_mean_storage_invariant [[1], [2]] [[2], [1]] [coopMetaA, coopMetaB]
    [coopMetaB, coopMetaA] [3] (List.Perm.swap _ _ _)

/-! ### C4: the two embedding-text constructions -/

theorem intercalate_three (a b c : String) :
    String.intercalate "\n\n" [a, b, c] = a ++ "\n\n" ++ b ++ "\n\n" ++ c := by
  simp [String.intercalate, String.intercalate.go, String.append_assoc]

/-- C4 (amended).  For a record with non-empty content, the batch
generator builds exactly
`"{name} - {type}\n\nLocation: {location}\n\n{first 10000 characters}"`
(using the `type` field, not `category`), while the per-candidate scorer
builds `"{name}\n\nLocation: {location}\n\n{first 10000 characters}"`:
both join their parts with blank lines and truncate the content to its
first 10000 characters, but the header differs, so the two constructions
are not the same format. -/
theorem embedding_text_formats :
    (∀ (coop : GenerateEmbeddings.ContentCoop) (s : String),
      coop.content = some s → s ≠ "" →
        GenerateEmbeddings.create_text_for_embedding coop
          = coop.name ++ " - " ++ coop.type ++ "\n\n"
              ++ ("Location: " ++ coop.location) ++ "\n\n" ++ pySlice s 10000) ∧
    (∀ name location content : String, content ≠ "" →
      SimilaritySearch.create_embedding_text name location content
        = name ++ "\n\n" ++ ("Location: " ++ location) ++ "\n\n"
            ++ pySlice content 10000) := by
  constructor
  · intro coop s hc hs
    unfold GenerateEmbeddings.create_text_for_embedding
    rw [hc]
    simp only [if_neg hs]
    simp [String.intercalate, String.intercalate.go, String.append_assoc]
  · intro name location content hc
    unfold SimilaritySearch.create_embedding_text
    simp only [if_neg hc]
    simp [String.intercalate, String.intercalate.go, String.append_assoc]

/-- Witness for the amended C4 at a concrete record. -/
theorem embedding_text_formats_witness :
    GenerateEmbeddings.create_text_for_embedding
        { id := 7, name := "Acme", website := none, category := "agricultural",
          type := "agricultural", location := "Ames, IA",
          content := some "We are a cooperative" }
      = "Acme" ++ " - " ++ "agricultural" ++ "\n\n"
          ++ ("Location: " ++ "Ames, IA") ++ "\n\n"
          ++ pySlice "We are a cooperative" 10000 ∧
    SimilaritySearch.create_embedding_text "Acme" "Ames, IA" "We are a cooperative"
      = "Acme" ++ "\n\n" ++ ("Location: " ++ "Ames, IA") ++ "\n\n"
          ++ pySlice "We are a cooperative" 10000 :=
  ⟨embedding_text_formats.1
      { id := 7, name := "Acme", website := none, category := "agricultural",
        type := "agricultural", location := "Ames, IA",
        content := some "We are a cooperative" }
      "We are a cooperative" rfl (by decide),
    embedding_text_formats.2 "Acme" "Ames, IA" "We are a cooperative" (by decide)⟩

/-- Counterexample to C4 as stated: at a record with name `A`, category
`c1`, type `t1`, location `L` and content `x`, the scorer builds
`"A\n\nLocation: L\n\nx"` (no category header at all) and the batch
generator builds `"A - t1\n\nLocation: L\n\nx"` (the type, not the
category), so neither equals the claimed
`"A - c1\n\nLocation: L\n\nx"`, and the two constructions differ from
each other. -/
theorem embedding_text_format_counterexample :
    SimilaritySearch.create_embedding_text "A" "L" "x" = "A\n\nLocation: L\n\nx" ∧
    SimilaritySearch.create_embedding_text "A" "L" "x" ≠ "A - c1\n\nLocation: L\n\nx" ∧
    GenerateEmbeddings.create_text_for_embedding
        { id := 0, name := "A", website := none, category := "c1", type := "t1",
          location := "L", content := some "x" }
      = "A - t1\n\nLocation: L\n\nx" ∧
    GenerateEmbeddings.create_text_for_embedding
        { id := 0, name := "A", website := none, category := "c1", type := "t1",
          location := "L", content := some "x" }
      ≠ "A - c1\n\nLocation: L\n\nx" ∧
    SimilaritySearch.create_embedding_text "A" "L" "x"
      ≠ GenerateEmbeddings.create_text_for_embedding
          { id := 0, name := "A", website := none, category := "c1", type := "t1",
            location := "L", content := some "x" } := by
  refine ⟨?_, ?_, ?_, ?_, ?_⟩ <;> decide

/-! ### C5: idempotence of the deduplication normalizers -/

theorem asciiLower_idem (c : Char) : asciiLower (asciiLower c) = asciiLower c := by
  unfold asciiLower
  by_cases h : 65 ≤ c.toNat ∧ c.toNat ≤ 90
  · rw [if_pos h]
    have hv : (c.toNat + 32).isValidChar := Or.inl (by omega)
    have ht : (Char.ofNat (c.toNat + 32)).toNat = c.toNat + 32 := by
      unfold Char.ofNat
      rw [dif_pos hv]
      rfl
    have hn : ¬(65 ≤ (Char.ofNat (c.toNat + 32)).toNat
        ∧ (Char.ofNat (c.toNat + 32)).toNat ≤ 90) := by
      rw [ht]
      omega
    rw [if_neg hn]
  · rw [if_neg h, if_neg h]

theorem mem_replDelAux {pat : List Char} {c : Char} :
    ∀ {s : List Char} {k : ℕ}, c ∈ replDelAux pat s k → c ∈ s := by
  intro s
  induction s with
  | nil => intro k h; cases h
  | cons x rest ih =>
    intro k h
    cases k with
    | succ k' => exact List.mem_cons_of_mem _ (ih h)
    | zero =>
      have hd : replDelAux pat (x :: rest) 0
          = if !pat.isEmpty && pat.isPrefixOf (x :: rest) then
              replDelAux pat rest (pat.length - 1)
            else x :: replDelAux pat rest 0 := rfl
      rw [hd] at h
      by_cases hc : (!pat.isEmpty && pat.isPrefixOf (x :: rest)) = true
      · rw [if_pos hc] at h
        exact List.mem_cons_of_mem _ (ih h)
      · rw [if_neg hc] at h
        rcases List.mem_cons.mp h with rfl | h'
        · exact List.mem_cons_self _ _
        · exact List.mem_cons_of_mem _ (ih h')

theorem replDelAux_no_occurrence {pat : List Char} :
    ∀ {s : List Char}, containsSub pat s = false → replDelAux pat s 0 = s := by
  intro s
  induction s with
  | nil => intro _; rfl
  | cons x rest ih =>
    intro h
    have hdef : containsSub pat (x :: rest)
        = (pat.isPrefixOf (x :: rest) || containsSub pat rest) := rfl
    rw [hdef, Bool.or_eq_false_iff] at h
    obtain ⟨hnp, hrest⟩ := h
    have hd : replDelAux pat (x :: rest) 0
        = if !pat.isEmpty && pat.isPrefixOf (x :: rest) then
            replDelAux pat rest (pat.length - 1)
          else x :: replDelAux pat rest 0 := rfl
    have hcond : ¬((!pat.isEmpty && pat.isPrefixOf (x :: rest)) = true) := by
      rw [hnp]
      simp
    rw [hd, if_neg hcond, ih hrest]

theorem foldl_replDel_no_occurrence (pats : List (List Char)) :
    ∀ (x : List Char), (∀ p ∈ pats, containsSub p x = false) →
      pats.foldl pyReplaceDel x = x := by
  induction pats with
  | nil => intro x _; rfl
  | cons p ps ih =>
    intro x h
    show ps.foldl pyReplaceDel (pyReplaceDel x p) = x
    have hp : pyReplaceDel x p = x :=
      replDelAux_no_occurrence (h p (List.mem_cons_self p ps))
    rw [hp]
    exact ih x (fun q hq => h q (List.mem_cons_of_mem _ hq))

theorem mem_foldl_replDel {c : Char} (pats : List (List Char)) :
    ∀ (x : List Char), c ∈ pats.foldl pyReplaceDel x → c ∈ x := by
  induction pats with
  | nil => intro x h; exact h
  | cons p ps ih =>
    intro x h
    exact mem_replDelAux (ih (pyReplaceDel x p) h)

theorem pyWordsAux_scan (w : List Char) :
    ∀ (acc rest : List Char), (∀ c ∈ w, c.isWhitespace = false) →
      pyWordsAux acc (w ++ rest) = pyWordsAux (w.reverse ++ acc) rest := by
  induction w with
  | nil => intro acc rest _; rfl
  | cons c w ih =>
    intro acc rest h
    have hc : c.isWhitespace = false := h c (List.mem_cons_self c w)
    have hd : pyWordsAux acc ((c :: w) ++ rest)
        = if c.isWhitespace then
            (if acc.isEmpty then pyWordsAux [] (w ++ rest)
             else acc.reverse :: pyWordsAux [] (w ++ rest))
          else pyWordsAux (c :: acc) (w ++ rest) := rfl
    have hcond : ¬(c.isWhitespace = true) := by rw [hc]; exact Bool.false_ne_true
    rw [hd, if_neg hcond, List.reverse_cons, List.append_assoc]
    exact ih (c :: acc) rest (fun d hd' => h d (List.mem_cons_of_mem _ hd'))

theorem pyWordsAux_wf :
    ∀ (s acc : List Char), (∀ c ∈ acc, c.isWhitespace = false) →
      ∀ w ∈ pyWordsAux acc s, w ≠ [] ∧ ∀ c ∈ w, c.isWhitespace = false := by
  intro s
  induction s with
  | nil =>
    intro acc hacc w hw
    cases acc with
    | nil => cases hw
    | cons a as =>
      have hd : pyWordsAux (a :: as) [] = [(a :: as).reverse] := rfl
      rw [hd] at hw
      rcases List.mem_singleton.mp hw with rfl
      refine ⟨by simp, ?_⟩
      intro c hc
      exact hacc c (List.mem_reverse.mp hc)
  | cons x rest ih =>
    intro acc hacc w hw
    cases hx : x.isWhitespace with
    | true =>
      have hd : pyWordsAux acc (x :: rest)
          = if acc.isEmpty then pyWordsAux [] rest
            else acc.reverse :: pyWordsAux [] rest := by
        show (if x.isWhitespace then _ else _) = _
        rw [hx]
        rfl
      rw [hd] at hw
      cases acc with
      | nil =>
        exact ih [] (fun c hc => absurd hc (List.not_mem_nil c)) w hw
      | cons a as =>
        have hd2 : ((a :: as).isEmpty) = false := rfl
        rw [hd2] at hw
        simp only [Bool.false_eq_true, if_false] at hw
        rcases List.mem_cons.mp hw with rfl | hw'
        · refine ⟨by simp, ?_⟩
          intro c hc
          exact hacc c (List.mem_reverse.mp hc)
        · exact ih [] (fun c hc => absurd hc (List.not_mem_nil c)) w hw'
    | false =>
      have hd : pyWordsAux acc (x :: rest) = pyWordsAux (x :: acc) rest := by
        show (if x.isWhitespace then _ else _) = _
        rw [hx]
        rfl
      rw [hd] at hw
      refine ih (x :: acc) ?_ w hw
      intro c hc
      rcases List.mem_cons.mp hc with rfl | hc'
      · exact hx
      · exact hacc c hc'

theorem pyWords_wf (s : List Char) :
    ∀ w ∈ pyWords s, w ≠ [] ∧ ∀ c ∈ w, c.isWhitespace = false :=
  pyWordsAux_wf s [] (fun c hc => absurd hc (List.not_mem_nil c))

theorem pyWords_pyUnwords :
    ∀ (ws : List (List Char)),
      (∀ w ∈ ws, w ≠ [] ∧ ∀ c ∈ w, c.isWhitespace = false) →
      pyWords (pyUnwords ws) = ws := by
  intro ws
  induction ws with
  | nil => intro _; rfl
  | cons w ws ih =>
    intro h
    obtain ⟨hwne, hwc⟩ := h w (List.mem_cons_self w ws)
    have hrevne : w.reverse ≠ [] := by
      intro hr
      exact hwne (by simpa using congrArg List.reverse hr)
    cases ws with
    | nil =>
      show pyWordsAux [] w = [w]
      have h1 : pyWordsAux [] w = pyWordsAux [] (w ++ []) := by
        rw [List.append_nil]
      rw [h1, pyWordsAux_scan w [] [] hwc, List.append_nil]
      have hd : pyWordsAux w.reverse []
          = if w.reverse.isEmpty then [] else [w.reverse.reverse] := rfl
      have hne : ¬(w.reverse.isEmpty = true) := by
        intro hie
        exact hrevne (List.isEmpty_iff.mp hie)
      rw [hd, if_neg hne, List.reverse_reverse]
    | cons w2 ws2 =>
      show pyWordsAux [] (w ++ ' ' :: pyUnwords (w2 :: ws2)) = w :: w2 :: ws2
      rw [pyWordsAux_scan w [] _ hwc, List.append_nil]
      have hd : pyWordsAux w.reverse (' ' :: pyUnwords (w2 :: ws2))
          = if w.reverse.isEmpty then pyWordsAux [] (pyUnwords (w2 :: ws2))
            else w.reverse.reverse :: pyWordsAux [] (pyUnwords (w2 :: ws2)) := by
        show (if (' '.isWhitespace) then _ else _) = _
        rw [show (' '.isWhitespace) = true from rfl]
        rfl
      have hne : ¬(w.reverse.isEmpty = true) := by
        intro hie
        exact hrevne (List.isEmpty_iff.mp hie)
      rw [hd, if_neg hne, List.reverse_reverse]
      have hih := ih (fun w' hw' => h w' (List.mem_cons_of_mem _ hw'))
      show w :: pyWords (pyUnwords (w2 :: ws2)) = w :: w2 :: ws2
      rw [hih]

theorem collapseWs_idem (s : List Char) :
    collapseWs (collapseWs s) = collapseWs s := by
  show pyUnwords (pyWords (pyUnwords (pyWords s))) = pyUnwords (pyWords s)
  rw [pyWords_pyUnwords (pyWords s) (pyWords_wf s)]

theorem mem_pyUnwords {c : Char} :
    ∀ {ws : List (List Char)}, c ∈ pyUnwords ws → c = ' ' ∨ ∃ w ∈ ws, c ∈ w := by
  intro ws
  induction ws with
  | nil => intro h; cases h
  | cons w ws ih =>
    cases ws with
    | nil =>
      intro h
      exact Or.inr ⟨w, List.mem_cons_self w [], h⟩
    | cons w2 ws2 =>
      intro h
      rcases List.mem_append.mp h with h1 | h2
      · exact Or.inr ⟨w, List.mem_cons_self _ _, h1⟩
      · rcases List.mem_cons.mp h2 with rfl | h3
        · exact Or.inl rfl
        · rcases ih h3 with h4 | ⟨w', hw', hc'⟩
          · exact Or.inl h4
          · exact Or.inr ⟨w', List.mem_cons_of_mem _ hw', hc'⟩

theorem mem_pyWordsAux {c : Char} :
    ∀ {s acc w : List Char}, w ∈ pyWordsAux acc s → c ∈ w → c ∈ acc ∨ c ∈ s := by
  intro s
  induction s with
  | nil =>
    intro acc w hw hc
    cases acc with
    | nil => cases hw
    | cons a as =>
      have hd : pyWordsAux (a :: as) [] = [(a :: as).reverse] := rfl
      rw [hd] at hw
      rcases List.mem_singleton.mp hw with rfl
      exact Or.inl (List.mem_reverse.mp hc)
  | cons x rest ih =>
    intro acc w hw hc
    cases hx : x.isWhitespace with
    | true =>
      have hd : pyWordsAux acc (x :: rest)
          = if acc.isEmpty then pyWordsAux [] rest
            else acc.reverse :: pyWordsAux [] rest := by
        show (if x.isWhitespace then _ else _) = _
        rw [hx]
        rfl
      rw [hd] at hw
      cases acc with
      | nil =>
        rcases ih hw hc with h1 | h2
        · cases h1
        · exact Or.inr (List.mem_cons_of_mem _ h2)
      | cons a as =>
        have hd2 : ((a :: as).isEmpty) = false := rfl
        rw [hd2] at hw
        simp only [Bool.false_eq_true, if_false] at hw
        rcases List.mem_cons.mp hw with rfl | hw'
        · exact Or.inl (List.mem_reverse.mp hc)
        · rcases ih hw' hc with h1 | h2
          · cases h1
          · exact Or.inr (List.mem_cons_of_mem _ h2)
    | false =>
      have hd : pyWordsAux acc (x :: rest) = pyWordsAux (x :: acc) rest := by
        show (if x.isWhitespace then _ else _) = _
        rw [hx]
        rfl
      rw [hd] at hw
      rcases ih hw hc with h1 | h2
      · rcases List.mem_cons.mp h1 with rfl | h1'
        · exact Or.inr (List.mem_cons_self _ _)
        · exact Or.inl h1'
      · exact Or.inr (List.mem_cons_of_mem _ h2)

theorem list_map_id_of_fixed {f : Char → Char} :
    ∀ {l : List Char}, (∀ c ∈ l, f c = c) → l.map f = l := by
  intro l
  induction l with
  | nil => intro _; rfl
  | cons x xs ih =>
    intro h
    show f x :: xs.map f = x :: xs
    rw [h x (List.mem_cons_self x xs), ih (fun c hc => h c (List.mem_cons_of_mem _ hc))]

theorem normalize_name_chars_lower (s : String) :
    ∀ c ∈ (GenerateCandidates.normalize_name s).data, asciiLower c = c := by
  intro c hc
  have hc' : c ∈ collapseWs
      (GenerateCandidates.suffixPats.foldl pyReplaceDel (pyLower s.data)) := hc
  rcases mem_pyUnwords hc' with rfl | ⟨w, hw, hcw⟩
  · rfl
  · rcases mem_pyWordsAux hw hcw with h1 | h2
    · cases h1
    · have hx : c ∈ pyLower s.data :=
        mem_foldl_replDel GenerateCandidates.suffixPats (pyLower s.data) h2
      rcases List.mem_map.mp hx with ⟨d, _, rfl⟩
      exact asciiLower_idem d

theorem normalize_name_idem_of_clean (s : String)
    (h : GenerateCandidates.noSuffixIn (GenerateCandidates.normalize_name s) = true) :
    GenerateCandidates.normalize_name (GenerateCandidates.normalize_name s)
      = GenerateCandidates.normalize_name s := by
  have hlow : pyLower (GenerateCandidates.normalize_name s).data
      = (GenerateCandidates.normalize_name s).data :=
    list_map_id_of_fixed (normalize_name_chars_lower s)
  have hocc : ∀ p ∈ GenerateCandidates.suffixPats,
      containsSub p (GenerateCandidates.normalize_name s).data = false := by
    intro p hp
    have h2 := List.all_eq_true.mp h p hp
    rw [Bool.not_eq_true'] at h2
    exact h2
  have hfold : GenerateCandidates.suffixPats.foldl pyReplaceDel
      (GenerateCandidates.normalize_name s).data
        = (GenerateCandidates.normalize_name s).data :=
    foldl_replDel_no_occurrence _ _ hocc
  show (⟨collapseWs (GenerateCandidates.suffixPats.foldl pyReplaceDel
      (pyLower (GenerateCandidates.normalize_name s).data))⟩ : String)
    = GenerateCandidates.normalize_name s
  rw [hlow, hfold]
  show (⟨collapseWs (collapseWs
      (GenerateCandidates.suffixPats.foldl pyReplaceDel (pyLower s.data)))⟩ : String) = _
  rw [collapseWs_idem]
  rfl

theorem extract_domain_of_normalized (d : String)
    (h1 : d.data.all (fun c => !(c = '/' || c = '?' || c = '#')) = true)
    (h2 : pyLower d.data = d.data)
    (h3 : "www.".data.isPrefixOf d.data = false) :
    GenerateCandidates.extract_domain ("https://" ++ d) = d := by
  have hdata : ("https://" ++ d).data
      = 'h' :: 't' :: 't' :: 'p' :: 's' :: ':' :: '/' :: '/' :: d.data := by
    rw [String.data_append]
    rfl
  have hnet : GenerateCandidates.urlparseNetloc
      ('h' :: 't' :: 't' :: 'p' :: 's' :: ':' :: '/' :: '/' :: d.data)
        = d.data.takeWhile (fun c => !(c = '/' || c = '?' || c = '#')) := rfl
  have htw : d.data.takeWhile (fun c => !(c = '/' || c = '?' || c = '#')) = d.data :=
    List.takeWhile_eq_self_iff.mpr (fun x hx => List.all_eq_true.mp h1 x hx)
  have hcond : ¬("www.".data.isPrefixOf d.data = true) := by
    rw [h3]
    exact Bool.false_ne_true
  show (if "www.".data.isPrefixOf
      (pyLower (GenerateCandidates.urlparseNetloc (("https://" ++ d).data))) then
        (⟨(pyLower (GenerateCandidates.urlparseNetloc (("https://" ++ d).data))).drop 4⟩ : String)
      else ⟨pyLower (GenerateCandidates.urlparseNetloc (("https://" ++ d).data))⟩) = d
  rw [hdata, hnet, htw, h2, if_neg hcond]

/-- C5 (amended).  The name normalizer is idempotent on every string whose
normalized form contains no residual suffix pattern (a second pass then
changes nothing); it is not idempotent in general, because deleting one
suffix can splice together a new occurrence of another.  The domain
normalizer maps `https://` ++ an already-normalized domain (lower-case, no
`www.` prefix, no `/`, `?` or `#`) to that domain unchanged; applied to a
bare domain without a scheme it instead returns the empty string, because
`urlparse` puts a scheme-less input in the path, not the netloc. -/
theorem deduplication_normalizers_amended :
    (∀ s : String,
      GenerateCandidates.noSuffixIn (GenerateCandidates.normalize_name s) = true →
      GenerateCandidates.normalize_name (GenerateCandidates.normalize_name s)
        = GenerateCandidates.normalize_name s) ∧
    (∀ d : String,
      d.data.all (fun c => !(c = '/' || c = '?' || c = '#')) = true →
      pyLower d.data = d.data →
      "www.".data.isPrefixOf d.data = false →
      GenerateCandidates.extract_domain ("https://" ++ d) = d) :=
  ⟨normalize_name_idem_of_clean, extract_domain_of_normalized⟩

/-- Witness for the amended C5 on a concrete name and a concrete domain. -/
theorem deduplication_normalizers_amended_witness :
    GenerateCandidates.normalize_name
        (GenerateCandidates.normalize_name "Acme Farm Cooperative, Inc.")
      = GenerateCandidates.normalize_name "Acme Farm Cooperative, Inc." ∧
    GenerateCandidates.extract_domain ("https://" ++ "example.com") = "example.com" :=
  ⟨deduplication_normalizers_amended.1 "Acme Farm Cooperative, Inc." (by decide),
    deduplication_normalizers_amended.2 "example.com" (by decide) (by decide) (by decide)⟩

/-- Counterexample to C5 as stated: the input `", i.nc"` normalizes to
`", inc"` (deleting the dot splices a suffix occurrence together), and a
second pass deletes that and yields `""`, so `normalize_name` is not
idempotent; and `extract_domain` applied to the already-normalized domain
`example.com` (itself the output of `extract_domain` on a real URL, third
conjunct) returns `""` rather than the domain unchanged. -/
theorem deduplication_normalizers_counterexample :
    GenerateCandidates.normalize_name (GenerateCandidates.normalize_name ", i.nc")
      ≠ GenerateCandidates.normalize_name ", i.nc" ∧
    GenerateCandidates.extract_domain "example.com" ≠ "example.com" ∧
    GenerateCandidates.extract_domain "https://www.Example.com/path" = "example.com" := by
  refine ⟨?_, ?_, ?_⟩ <;> decide

end IowaCoops
